import Mathlib

/-!
# Verification of the maro RL learner control loops

Shallow embedding of the two learner control loops of the repository:

* `src/maro/rl/training/local_learner.py` (`LocalLearner`)
* `src/maro/rl/training/sync_tools/learner.py` (`Learner`)

Python integers are modelled as `Int` (episode counts, which are natural
numbers in every claim, as `Nat`), Python lists as `List`, fallible code
(`raise` / `KeyError` / `IndexError` / `ZeroDivisionError`) as
`Except String`.  The external collaborators (environment wrapper, policies,
exploration schemes, early stopper, rollout/policy managers) are oracles:
their observable interactions are recorded in an event trace, and their
decisions (early-stopper verdicts, number of evaluation metrics, environment
termination) are supplied as functions.
-/

set_option autoImplicit false

namespace Maro

/-! ## Evaluation schedule computation -/

/-- The `eval_schedule` argument of both constructors: `None`, an integer
interval, or an explicit list of episode indices. -/
inductive EvalArg where
  | none
  | int (k : Int)
  | list (l : List Int)
deriving DecidableEq

/-- Python `list.sort()` on integers: stable ascending sort. -/
def pySort (l : List Int) : List Int := l.insertionSort (· ≤ ·)

/-- The shared tail of the schedule computation:
`if not sched or num_episodes != sched[-1]: sched.append(num_episodes)`. -/
def appendFinal (num_episodes : Nat) (l : List Int) : List Int :=
  if l.getLast? = some (num_episodes : Int) then l else l ++ [(num_episodes : Int)]

/-- The multiples list `[eval_schedule * i for i in range(1, num_episodes // eval_schedule + 1)]`,
with Python's floor division; `k = 0` raises `ZeroDivisionError`. -/
def intervalMultiples (num_episodes : Nat) (k : Int) : Except String (List Int) :=
  if k = 0 then Except.error "ZeroDivisionError"
  else Except.ok (((List.range' 1 (Int.fdiv (num_episodes : Int) k).toNat)).map (fun i => k * (i : Int)))

/-- Evaluation schedule stored by `LocalLearner.__init__` (local_learner.py
lines 94-105): the `None` / `int` / `list` branches produce a base list, which
is then sorted and `num_episodes` appended unless it is already the last
element. -/
def localEvalSchedule (num_episodes : Nat) (arg : EvalArg) : Except String (List Int) :=
  match arg with
  | EvalArg.none => Except.ok (appendFinal num_episodes (pySort []))
  | EvalArg.int k => (intervalMultiples num_episodes k).map (fun l => appendFinal num_episodes (pySort l))
  | EvalArg.list l => Except.ok (appendFinal num_episodes (pySort l))

/-- Evaluation schedule stored by `Learner.__init__` (learner.py lines 56-66):
here the sort and the `num_episodes` append only happen in the explicit-list
branch; the `None` and `int` branches store the base list as is. -/
def learnerEvalSchedule (num_episodes : Nat) (arg : EvalArg) : Except String (List Int) :=
  match arg with
  | EvalArg.none => Except.ok []
  | EvalArg.int k => intervalMultiples num_episodes k
  | EvalArg.list l => Except.ok (appendFinal num_episodes (pySort l))

/-! ## Segment collection (`LocalLearner._collect`) -/

/-- The step budget `self._num_steps = num_steps if num_steps > 0 else float("inf")`
(local_learner.py line 80): `Option.none` models `float("inf")`. -/
def budgetOf (num_steps : Int) : Option Nat :=
  if 0 < num_steps then some num_steps.toNat else Option.none

/-- Python truthiness of the remaining step budget (`inf` is truthy, an
integer is truthy iff nonzero). -/
def budgetTruthy : Option Nat → Bool
  | Option.none => true
  | some k => decide (k ≠ 0)

/-- One decrement `steps_to_go -= 1` (`inf - 1 == inf`). -/
def budgetDec : Option Nat → Option Nat
  | Option.none => Option.none
  | some k => some (k - 1)

/-- The loop of `LocalLearner._collect` (local_learner.py lines 176-197):
`while self.env.state and steps_to_go: self.env.step(action); steps_to_go -= 1`.
The environment trajectory is the oracle `stateAt : Nat → Bool` giving the
truthiness of `env.state` after a given total number of steps; `pos` is the
current step count.  `fuel` bounds the recursion; `Option.none` means the loop
did not finish within `fuel` iterations. -/
def collectLoop (stateAt : Nat → Bool) : Nat → Nat → Option Nat → Option Nat
  | 0, _, _ => Option.none
  | fuel + 1, pos, b =>
      if stateAt pos && budgetTruthy b then collectLoop stateAt fuel (pos + 1) (budgetDec b)
      else some pos

/-- `LocalLearner._collect`: run the segment loop, then harvest
`self.env.get_experiences()` (modelled by the oracle `expAt`, indexed by the
step count at which the harvest happens). -/
def localCollect (stateAt : Nat → Bool) (expAt : Nat → List (String × Nat))
    (fuel pos : Nat) (b : Option Nat) : Option (Nat × List (String × Nat)) :=
  (collectLoop stateAt fuel pos b).map (fun q => (q, expAt q))

/-! ## `LocalLearner.__init__` validation -/

/-- Arguments of `LocalLearner.__init__` that participate in construction-time
validation.  `explorationIds = Option.none` models `exploration_dict = None`;
`some ids` models a dict with key list `ids` (the empty dict is falsy in
`if exploration_dict:`, like `None`). -/
structure LocalInitArgs where
  policyNames : List String
  agent2policy : List (String × String)
  num_steps : Int
  explorationIds : Option (List String)
  agent2exploration : List (String × String)
  num_episodes : Nat
  evalArg : EvalArg

/-- Dict-comprehension lookup `{agent: d[key] for agent, key in m.items()}`
succeeds iff every referenced key is registered. -/
def lookupAll (keys : List String) (m : List (String × String)) : Bool :=
  m.all (fun ap => keys.contains ap.2)

/-- Whether an `Except` result is an error. -/
def isErr {α : Type} : Except String α → Bool
  | Except.error _ => true
  | Except.ok _ => false

/-- `LocalLearner.__init__` (local_learner.py lines 49-110), reduced to its
validating steps in source order: the explicit `num_steps` check
(`ValueError`), the agent→policy dict build (`KeyError` on an unregistered
policy id), the agent→exploration dict build (`KeyError`, only when
`exploration_dict` is truthy), and the evaluation-schedule computation.
Returns the stored schedule and step budget. -/
def localInit (a : LocalInitArgs) : Except String (List Int × Option Nat) :=
  if a.num_steps = 0 ∨ a.num_steps < -1 then Except.error "ValueError"
  else if lookupAll a.policyNames a.agent2policy = false then Except.error "KeyError"
  else
    match a.explorationIds with
    | some ids =>
        if ids ≠ [] ∧ lookupAll ids a.agent2exploration = false then Except.error "KeyError"
        else (localEvalSchedule a.num_episodes a.evalArg).map (fun s => (s, budgetOf a.num_steps))
    | Option.none => (localEvalSchedule a.num_episodes a.evalArg).map (fun s => (s, budgetOf a.num_steps))

/-! ## The episode loop shared by `LocalLearner.run` and `Learner.run`

Both `run` methods are the same loop
```
for ep in range(1, self.num_episodes + 1):
    self._train(ep)
    if ep == self._eval_schedule[self._eval_point_index]:
        self._eval_point_index += 1
        <evaluate, push metrics into the early stopper, return if it stops>
<optional exit hooks (distributed variant only)>
```
differing only in what one training episode emits, what one evaluation with
its early-stopper interaction emits, and the terminal hooks.  We model the
loop once over those three parameters and instantiate it for each variant.
The observable interactions with the collaborators are recorded as events. -/

/-- Observable collaborator interactions of a run. -/
inductive Ev where
  | train (ep : Int)
  | explStep (scheme : String)
  | evalBegin
  | evalStep
  | evalEnd
  | push
  | stopTrue
  | exitRollout
  | exitPolicy
deriving DecidableEq

/-- Result of a completed `run()`: the event trace, the final
`_eval_point_index` cursor, the number of evaluation invocations, the number
of `push()` calls on the early stopper, and (if the run returned early) the
episode at which `stop()` returned true. -/
structure RunOut where
  trace : List Ev
  cursor : Nat
  evals : Nat
  pushes : Nat
  stoppedAt : Option Int
deriving DecidableEq

/-- Variant-specific parts of the episode loop: the stored schedule, the
events of one training episode, the evaluation step
(`evals so far → pushes so far → (events, new pushes, stop() returned true)`),
and the events emitted after the loop exhausts the episode budget. -/
structure RunParams where
  sched : List Int
  trainBlock : Int → List Ev
  evalFn : Nat → Nat → List Ev × Nat × Bool
  exitTrace : List Ev

/-- The episode loop, over the remaining episode indices and the current
cursor / evaluation / push counters.  Each episode trains, then compares the
index against `sched[cursor]` (an out-of-range cursor is Python's
`IndexError`); on a match the cursor advances and the evaluation step runs;
if the early stopper stopped, `run()` returns immediately (no exit events). -/
def runAux (P : RunParams) : List Int → Nat → Nat → Nat → Except String RunOut
  | [], c, e, p => Except.ok ⟨P.exitTrace, c, e, p, Option.none⟩
  | ep :: rest, c, e, p =>
      if h : c < P.sched.length then
        if ep = P.sched.get ⟨c, h⟩ then
          if (P.evalFn e p).2.2 then
            Except.ok ⟨P.trainBlock ep ++ (P.evalFn e p).1, c + 1, e + 1, (P.evalFn e p).2.1, some ep⟩
          else
            match runAux P rest (c + 1) (e + 1) (P.evalFn e p).2.1 with
            | Except.ok out =>
                Except.ok ⟨P.trainBlock ep ++ (P.evalFn e p).1 ++ out.trace, out.cursor, out.evals, out.pushes, out.stoppedAt⟩
            | Except.error msg => Except.error msg
        else
          match runAux P rest c e p with
          | Except.ok out =>
              Except.ok ⟨P.trainBlock ep ++ out.trace, out.cursor, out.evals, out.pushes, out.stoppedAt⟩
          | Except.error msg => Except.error msg
      else Except.error "IndexError"

/-- Python `range(a, a + m)` as a list of integers. -/
def intRange : Nat → Nat → List Int
  | _, 0 => []
  | a, m + 1 => (a : Int) :: intRange (a + 1) m

/-- The episode indices `range(1, num_episodes + 1)`. -/
def episodes (n : Nat) : List Int := intRange 1 n

/-! ### `LocalLearner` instantiation -/

/-- Oracle configuration for a `LocalLearner` run: the stored
`_eval_schedule`, the keys of `exploration_dict` (empty for `None` or the
falsy empty dict), whether an early stopper is configured, the stopper's
`stop()` verdict as a function of how many observations have been pushed, and
the number of evaluation-environment steps of the i-th evaluation episode. -/
structure LocalCfg where
  sched : List Int
  schemes : List String
  hasStopper : Bool
  stopAfter : Nat → Bool
  evalLen : Nat → Nat

/-- Events of one `LocalLearner._train(ep)` (lines 125-161): the rollout
segments update the policies (abstracted), then — when `exploration_dict` is
truthy — each registered exploration scheme is stepped once at episode end. -/
def localTrainBlock (schemes : List String) (ep : Int) : List Ev :=
  Ev.train ep :: schemes.map Ev.explStep

/-- Events of one `LocalLearner._evaluate()` (lines 163-174): an evaluation
episode of `k` environment steps, with no exploration and no learning. -/
def evalBlock (k : Nat) : List Ev :=
  Ev.evalBegin :: (List.replicate k Ev.evalStep ++ [Ev.evalEnd])

/-- The evaluation step of `LocalLearner.run` (lines 116-123): run
`_evaluate()`; then, if an early stopper is configured, push the evaluation
environment's summary and query `stop()`. -/
def localEvalFn (cfg : LocalCfg) (e p : Nat) : List Ev × Nat × Bool :=
  if cfg.hasStopper then
    (evalBlock (cfg.evalLen e) ++ [Ev.push] ++ (if cfg.stopAfter (p + 1) then [Ev.stopTrue] else []),
      p + 1, cfg.stopAfter (p + 1))
  else (evalBlock (cfg.evalLen e), p, false)

/-- The loop parameters of `LocalLearner.run` (no terminal hooks). -/
def localParams (cfg : LocalCfg) : RunParams :=
  ⟨cfg.sched, localTrainBlock cfg.schemes, localEvalFn cfg, []⟩

/-- `LocalLearner.run` (local_learner.py lines 112-123). -/
def localRun (n : Nat) (cfg : LocalCfg) : Except String RunOut :=
  runAux (localParams cfg) (episodes n) 0 0 0

/-! ### Distributed `Learner` instantiation -/

/-- Oracle configuration for a distributed `Learner` run: the stored
`_eval_schedule`, whether an early stopper is configured, its `stop()`
verdict after a given number of pushes, the number of entries of the metric
dict returned by `rollout_manager.evaluate` at the i-th evaluation, and
whether each manager defines an `exit()` hook. -/
structure LearnerCfg where
  sched : List Int
  hasStopper : Bool
  stopAfter : Nat → Bool
  numMetrics : Nat → Nat
  rmHasExit : Bool
  pmHasExit : Bool

/-- The metric loop of `Learner.run` (lines 86-90): for each metric in the
evaluation result, `push` it, then return immediately if `stop()` is true. -/
def learnerPushLoop (stopAfter : Nat → Bool) : Nat → Nat → List Ev × Nat × Bool
  | 0, p => ([], p, false)
  | m + 1, p =>
      if stopAfter (p + 1) then ([Ev.push, Ev.stopTrue], p + 1, true)
      else
        (Ev.push :: (learnerPushLoop stopAfter m (p + 1)).1,
          (learnerPushLoop stopAfter m (p + 1)).2.1, (learnerPushLoop stopAfter m (p + 1)).2.2)

/-- The evaluation step of `Learner.run` (lines 80-90): call
`rollout_manager.evaluate`, then — only if an early stopper is configured —
run the metric loop. -/
def learnerEvalFn (cfg : LearnerCfg) (e p : Nat) : List Ev × Nat × Bool :=
  if cfg.hasStopper then learnerPushLoop cfg.stopAfter (cfg.numMetrics e) p
  else ([], p, false)

/-- The terminal hooks of `Learner.run` (lines 92-96): each manager's
`exit()` is called after the loop, if defined. -/
def learnerExitTrace (cfg : LearnerCfg) : List Ev :=
  (if cfg.rmHasExit then [Ev.exitRollout] else []) ++ (if cfg.pmHasExit then [Ev.exitPolicy] else [])

/-- The loop parameters of `Learner.run`. -/
def learnerParams (cfg : LearnerCfg) : RunParams :=
  ⟨cfg.sched, fun ep => [Ev.train ep], learnerEvalFn cfg, learnerExitTrace cfg⟩

/-- `Learner.run` (learner.py lines 76-96). -/
def learnerRun (n : Nat) (cfg : LearnerCfg) : Except String RunOut :=
  runAux (learnerParams cfg) (episodes n) 0 0 0

/-! ### Trace observations -/

/-- Whether an event is the start of a training episode. -/
def isTrainEv : Ev → Bool
  | Ev.train _ => true
  | _ => false

/-- Number of completed training episodes recorded in a trace. -/
def trainCount (t : List Ev) : Nat := t.countP isTrainEv

/-- Number of `push()` calls recorded after `stop()` has returned true (the
flag tracks whether a `stopTrue` has been seen). -/
def pushesAfterStop : List Ev → Bool → Nat
  | [], _ => 0
  | Ev.stopTrue :: t, _ => pushesAfterStop t true
  | Ev.push :: t, true => pushesAfterStop t true + 1
  | _ :: t, b => pushesAfterStop t b

/-- Number of exploration `step()` calls recorded inside an evaluation
episode (the flag tracks whether we are between `evalBegin` and `evalEnd`). -/
def explInEval : List Ev → Bool → Nat
  | [], _ => 0
  | Ev.evalBegin :: t, _ => explInEval t true
  | Ev.evalEnd :: t, _ => explInEval t false
  | Ev.explStep _ :: t, true => explInEval t true + 1
  | _ :: t, b => explInEval t b

/-- The in-evaluation flag after scanning a trace. -/
def inEvalAfter : List Ev → Bool → Bool
  | [], b => b
  | Ev.evalBegin :: t, _ => inEvalAfter t true
  | Ev.evalEnd :: t, _ => inEvalAfter t false
  | _ :: t, b => inEvalAfter t b

/-! ## Basic facts about the helpers -/

theorem length_intRange : ∀ (a m : Nat), (intRange a m).length = m
  | _, 0 => rfl
  | a, m + 1 => by simp [intRange, length_intRange (a + 1) m]

theorem mem_intRange : ∀ (a m : Nat) (x : Int), x ∈ intRange a m →
    (a : Int) ≤ x ∧ x < (a : Int) + (m : Int)
  | a, 0, x => by intro h; simp [intRange] at h
  | a, m + 1, x => by
      intro h
      simp only [intRange, List.mem_cons] at h
      rcases h with h | h
      · subst h
        constructor
        · exact le_refl _
        · push_cast; omega
      · rcases mem_intRange (a + 1) m x h with ⟨h1, h2⟩
        constructor
        · push_cast at h1 ⊢; omega
        · push_cast at h2 ⊢; omega

/-- Cursor/evaluation bookkeeping of the episode loop: the cursor never
decreases, stays within the schedule, advances at most once per episode, and
advances exactly once per evaluation performed. -/
theorem runAux_ok_counts (P : RunParams) :
    ∀ (eps : List Int) (c e p : Nat) (out : RunOut), c ≤ P.sched.length →
      runAux P eps c e p = Except.ok out →
      c ≤ out.cursor ∧ out.cursor ≤ P.sched.length ∧ out.cursor + e = out.evals + c ∧
        out.cursor ≤ c + eps.length := by
  intro eps
  induction eps with
  | nil =>
      intro c e p out hc h
      simp only [runAux] at h
      injection h with h
      subst h
      simp only []
      refine ⟨le_refl _, hc, by omega, by omega⟩
  | cons ep rest ih =>
      intro c e p out hc h
      simp only [runAux] at h
      by_cases hlt : c < P.sched.length
      · rw [dif_pos hlt] at h
        by_cases heq : ep = P.sched.get ⟨c, hlt⟩
        · rw [if_pos heq] at h
          by_cases hstop : (P.evalFn e p).2.2
          · rw [if_pos hstop] at h
            injection h with h
            subst h
            simp only [List.length_cons]
            omega
          · rw [if_neg hstop] at h
            cases hrec : runAux P rest (c + 1) (e + 1) (P.evalFn e p).2.1 with
            | ok out' =>
                rw [hrec] at h
                injection h with h
                subst h
                rcases ih (c + 1) (e + 1) (P.evalFn e p).2.1 out' hlt hrec with ⟨h1, h2, h3, h4⟩
                simp only [List.length_cons]
                omega
            | error msg => rw [hrec] at h; exact absurd h (by simp)
        · rw [if_neg heq] at h
          cases hrec : runAux P rest c e p with
          | ok out' =>
              rw [hrec] at h
              injection h with h
              subst h
              rcases ih c e p out' hc hrec with ⟨h1, h2, h3, h4⟩
              simp only [List.length_cons]
              omega
          | error msg => rw [hrec] at h; exact absurd h (by simp)
      · rw [dif_neg hlt] at h
        exact absurd h (by simp)

/-- Schedule entries consumed by the episode loop over episodes
`a, a+1, ..., a+m-1` starting at cursor `c`: every consumed entry lies in the
episode window, and the consumed entries are strictly increasing. -/
theorem runAux_consumed (P : RunParams) :
    ∀ (m a c e p : Nat) (out : RunOut),
      runAux P (intRange a m) c e p = Except.ok out →
      (∀ i (hi : i < P.sched.length), c ≤ i → i < out.cursor →
          (a : Int) ≤ P.sched.get ⟨i, hi⟩ ∧ P.sched.get ⟨i, hi⟩ < (a : Int) + (m : Int)) ∧
      (∀ i j (hi : i < P.sched.length) (hj : j < P.sched.length), c ≤ i → i < j →
          j < out.cursor → P.sched.get ⟨i, hi⟩ < P.sched.get ⟨j, hj⟩) := by
  intro m
  induction m with
  | zero =>
      intro a c e p out h
      simp only [intRange, runAux] at h
      injection h with h
      subst h
      exact ⟨fun i hi hci hic => absurd hic (by simp only []; omega),
        fun i j hi hj hci hij hjc => absurd hjc (by simp only []; omega)⟩
  | succ m ih =>
      intro a c e p out h
      simp only [intRange, runAux] at h
      by_cases hlt : c < P.sched.length
      · rw [dif_pos hlt] at h
        by_cases heq : (a : Int) = P.sched.get ⟨c, hlt⟩
        · rw [if_pos heq] at h
          by_cases hstop : (P.evalFn e p).2.2
          · rw [if_pos hstop] at h
            injection h with h
            subst h
            refine ⟨fun i hi hci hic => ?_, fun i j hi hj hci hij hjc => ?_⟩
            · have hic' : i = c := by simp only [] at hic; omega
              subst hic'
              rw [← heq]
              constructor
              · exact le_refl _
              · push_cast; omega
            · simp only [] at hjc; omega
          · rw [if_neg hstop] at h
            cases hrec : runAux P (intRange (a + 1) m) (c + 1) (e + 1) (P.evalFn e p).2.1 with
            | ok out' =>
                rw [hrec] at h
                injection h with h
                subst h
                rcases ih (a + 1) (c + 1) (e + 1) (P.evalFn e p).2.1 out' hrec with ⟨hb, hs⟩
                refine ⟨fun i hi hci hic => ?_, fun i j hi hj hci hij hjc => ?_⟩
                · simp only [] at hic
                  rcases Nat.eq_or_lt_of_le hci with hic' | hic'
                  · subst hic'
                    rw [← heq]
                    constructor
                    · exact le_refl _
                    · push_cast; omega
                  · rcases hb i hi hic' hic with ⟨h1, h2⟩
                    constructor
                    · push_cast at h1 ⊢; omega
                    · push_cast at h2 ⊢; omega
                · simp only [] at hjc
                  rcases Nat.eq_or_lt_of_le hci with hic' | hic'
                  · subst hic'
                    rw [← heq]
                    have := (hb j hj (by omega) hjc).1
                    push_cast at this ⊢; omega
                  · exact hs i j hi hj hic' hij hjc
            | error msg => rw [hrec] at h; exact absurd h (by simp)
        · rw [if_neg heq] at h
          cases hrec : runAux P (intRange (a + 1) m) c e p with
          | ok out' =>
              rw [hrec] at h
              injection h with h
              subst h
              rcases ih (a + 1) c e p out' hrec with ⟨hb, hs⟩
              refine ⟨fun i hi hci hic => ?_, fun i j hi hj hci hij hjc => ?_⟩
              · simp only [] at hic
                rcases hb i hi hci hic with ⟨h1, h2⟩
                constructor
                · push_cast at h1 ⊢; omega
                · push_cast at h2 ⊢; omega
              · simp only [] at hjc
                exact hs i j hi hj hci hij hjc
          | error msg => rw [hrec] at h; exact absurd h (by simp)
      · rw [dif_neg hlt] at h
        exact absurd h (by simp)

/-- If the loop returned early, the episode recorded in `stoppedAt` is one of
the episodes it was iterating over. -/
theorem runAux_stopped_mem (P : RunParams) :
    ∀ (eps : List Int) (c e p : Nat) (out : RunOut) (ev : Int),
      runAux P eps c e p = Except.ok out → out.stoppedAt = some ev → ev ∈ eps := by
  intro eps
  induction eps with
  | nil =>
      intro c e p out ev h hst
      simp only [runAux] at h
      injection h with h
      subst h
      exact absurd hst (by simp)
  | cons ep rest ih =>
      intro c e p out ev h hst
      simp only [runAux] at h
      by_cases hlt : c < P.sched.length
      · rw [dif_pos hlt] at h
        by_cases heq : ep = P.sched.get ⟨c, hlt⟩
        · rw [if_pos heq] at h
          by_cases hstop : (P.evalFn e p).2.2
          · rw [if_pos hstop] at h
            injection h with h
            subst h
            simp only [] at hst
            injection hst with hst
            subst hst
            exact List.mem_cons_self _ _
          · rw [if_neg hstop] at h
            cases hrec : runAux P rest (c + 1) (e + 1) (P.evalFn e p).2.1 with
            | ok out' =>
                rw [hrec] at h
                injection h with h
                subst h
                exact List.mem_cons_of_mem _ (ih (c + 1) (e + 1) (P.evalFn e p).2.1 out' ev hrec hst)
            | error msg => rw [hrec] at h; exact absurd h (by simp)
        · rw [if_neg heq] at h
          cases hrec : runAux P rest c e p with
          | ok out' =>
              rw [hrec] at h
              injection h with h
              subst h
              exact List.mem_cons_of_mem _ (ih c e p out' ev hrec hst)
          | error msg => rw [hrec] at h; exact absurd h (by simp)
      · rw [dif_neg hlt] at h
        exact absurd h (by simp)

/-- Completeness of schedule consumption: over episodes `a .. a+m-1`, if the
schedule is strictly increasing, every not-yet-consumed entry is at least `a`,
every entry is below `a+m`, and the loop finished without an early stop, then
the cursor ends past the whole schedule. -/
theorem runAux_complete (P : RunParams) (hp : List.Pairwise (fun x y : Int => x < y) P.sched) :
    ∀ (m a c e p : Nat) (out : RunOut), c ≤ P.sched.length →
      (∀ i (hi : i < P.sched.length), c ≤ i → (a : Int) ≤ P.sched.get ⟨i, hi⟩) →
      (∀ x ∈ P.sched, x < (a : Int) + (m : Int)) →
      runAux P (intRange a m) c e p = Except.ok out → out.stoppedAt = Option.none →
      out.cursor = P.sched.length := by
  intro m
  induction m with
  | zero =>
      intro a c e p out hc hlo hhi h _hnone
      simp only [intRange, runAux] at h
      injection h with h
      subst h
      simp only []
      by_contra hne
      have hclt : c < P.sched.length := by omega
      have h1 := hlo c hclt (le_refl c)
      have h2 := hhi (P.sched.get ⟨c, hclt⟩) (P.sched.get_mem _ _)
      push_cast at h2
      omega
  | succ m ih =>
      intro a c e p out hc hlo hhi h hnone
      simp only [intRange, runAux] at h
      by_cases hlt : c < P.sched.length
      · rw [dif_pos hlt] at h
        by_cases heq : (a : Int) = P.sched.get ⟨c, hlt⟩
        · rw [if_pos heq] at h
          by_cases hstop : (P.evalFn e p).2.2
          · rw [if_pos hstop] at h
            injection h with h
            subst h
            exact absurd hnone (by simp)
          · rw [if_neg hstop] at h
            cases hrec : runAux P (intRange (a + 1) m) (c + 1) (e + 1) (P.evalFn e p).2.1 with
            | ok out' =>
                rw [hrec] at h
                injection h with h
                subst h
                simp only [] at hnone ⊢
                refine ih (a + 1) (c + 1) (e + 1) (P.evalFn e p).2.1 out' hlt ?_ ?_ hrec hnone
                · intro i hi hci
                  have hlt2 : (⟨c, hlt⟩ : Fin P.sched.length) < ⟨i, hi⟩ := by
                    simp only [Fin.mk_lt_mk]; omega
                  have := List.pairwise_iff_get.mp hp ⟨c, hlt⟩ ⟨i, hi⟩ hlt2
                  rw [← heq] at this
                  push_cast
                  omega
                · intro x hx
                  have := hhi x hx
                  push_cast at this ⊢
                  omega
            | error msg => rw [hrec] at h; exact absurd h (by simp)
        · rw [if_neg heq] at h
          cases hrec : runAux P (intRange (a + 1) m) c e p with
          | ok out' =>
              rw [hrec] at h
              injection h with h
              subst h
              simp only [] at hnone ⊢
              refine ih (a + 1) c e p out' hc ?_ ?_ hrec hnone
              · intro i hi hci
                have hgc : (a : Int) + 1 ≤ P.sched.get ⟨c, hlt⟩ := by
                  have := hlo c hlt (le_refl c)
                  omega
                rcases Nat.eq_or_lt_of_le hci with hic' | hic'
                · subst hic'
                  push_cast
                  omega
                · have hlt2 : (⟨c, hlt⟩ : Fin P.sched.length) < ⟨i, hi⟩ := by
                    simp only [Fin.mk_lt_mk]; omega
                  have := List.pairwise_iff_get.mp hp ⟨c, hlt⟩ ⟨i, hi⟩ hlt2
                  push_cast
                  omega
              · intro x hx
                have := hhi x hx
                push_cast at this ⊢
                omega
          | error msg => rw [hrec] at h; exact absurd h (by simp)
      · rw [dif_neg hlt] at h
        exact absurd h (by simp)

/-! ## Trace-scanning helpers -/

theorem pushesAfterStop_cons_of_ne (x : Ev) (t : List Ev) (hx : x ≠ Ev.stopTrue) :
    pushesAfterStop (x :: t) false = pushesAfterStop t false := by
  cases x <;> first | rfl | exact absurd rfl hx

theorem pushesAfterStop_append_false : ∀ (l₁ l₂ : List Ev), Ev.stopTrue ∉ l₁ →
    pushesAfterStop (l₁ ++ l₂) false = pushesAfterStop l₂ false
  | [], l₂, _ => rfl
  | x :: t, l₂, hmem => by
      have hx : x ≠ Ev.stopTrue := fun hc => hmem (hc ▸ List.mem_cons_self x t)
      rw [List.cons_append, pushesAfterStop_cons_of_ne x (t ++ l₂) hx,
        pushesAfterStop_append_false t l₂ (fun hc => hmem (List.mem_cons_of_mem x hc))]

theorem pushesAfterStop_eq_zero (l : List Ev) (hmem : Ev.stopTrue ∉ l) :
    pushesAfterStop l false = 0 := by
  have := pushesAfterStop_append_false l [] hmem
  simpa using this

theorem explInEval_append : ∀ (l₁ l₂ : List Ev) (b : Bool),
    explInEval (l₁ ++ l₂) b = explInEval l₁ b + explInEval l₂ (inEvalAfter l₁ b)
  | [], l₂, b => by simp [explInEval, inEvalAfter]
  | x :: t, l₂, b => by
      have ih1 := explInEval_append t l₂ true
      have ih2 := explInEval_append t l₂ false
      cases x <;> cases b <;>
        simp only [List.cons_append, explInEval, inEvalAfter, List.append_eq] at ih1 ih2 ⊢ <;>
        omega

theorem inEvalAfter_append : ∀ (l₁ l₂ : List Ev) (b : Bool),
    inEvalAfter (l₁ ++ l₂) b = inEvalAfter l₂ (inEvalAfter l₁ b)
  | [], l₂, b => rfl
  | x :: t, l₂, b => by
      cases x <;> cases b <;>
        simp only [List.cons_append, inEvalAfter, List.append_eq, inEvalAfter_append t l₂]

/-- Training episodes recorded by a run that stopped early at episode `ev`
all have index at most `ev`. -/
theorem runAux_train_le (P : RunParams)
    (htb : ∀ ep q : Int, Ev.train q ∈ P.trainBlock ep → q = ep)
    (hev : ∀ (e p : Nat) (q : Int), Ev.train q ∉ (P.evalFn e p).1) :
    ∀ (m a c e p : Nat) (out : RunOut) (ev : Int),
      runAux P (intRange a m) c e p = Except.ok out → out.stoppedAt = some ev →
      ∀ q : Int, Ev.train q ∈ out.trace → q ≤ ev := by
  intro m
  induction m with
  | zero =>
      intro a c e p out ev h hst
      simp only [intRange, runAux] at h
      injection h with h
      subst h
      exact absurd hst (by simp)
  | succ m ih =>
      intro a c e p out ev h hst
      simp only [intRange, runAux] at h
      by_cases hlt : c < P.sched.length
      · rw [dif_pos hlt] at h
        by_cases heq : (a : Int) = P.sched.get ⟨c, hlt⟩
        · rw [if_pos heq] at h
          by_cases hstop : (P.evalFn e p).2.2
          · rw [if_pos hstop] at h
            injection h with h
            subst h
            simp only [] at hst
            injection hst with hst
            subst hst
            intro q hq
            rcases List.mem_append.mp hq with hq | hq
            · exact le_of_eq (htb _ q hq)
            · exact absurd hq (hev e p q)
          · rw [if_neg hstop] at h
            cases hrec : runAux P (intRange (a + 1) m) (c + 1) (e + 1) (P.evalFn e p).2.1 with
            | ok out' =>
                rw [hrec] at h
                injection h with h
                subst h
                simp only [] at hst
                have hevlo : ((a : Int) + 1) ≤ ev := by
                  have hmem := runAux_stopped_mem P _ _ _ _ _ _ hrec hst
                  have := (mem_intRange (a + 1) m ev hmem).1
                  push_cast at this
                  omega
                intro q hq
                rcases List.mem_append.mp hq with hq | hq
                · rcases List.mem_append.mp hq with hq | hq
                  · have := htb _ q hq
                    omega
                  · exact absurd hq (hev e p q)
                · exact ih (a + 1) (c + 1) (e + 1) (P.evalFn e p).2.1 out' ev hrec hst q hq
            | error msg => rw [hrec] at h; exact absurd h (by simp)
        · rw [if_neg heq] at h
          cases hrec : runAux P (intRange (a + 1) m) c e p with
          | ok out' =>
              rw [hrec] at h
              injection h with h
              subst h
              simp only [] at hst
              have hevlo : ((a : Int) + 1) ≤ ev := by
                have hmem := runAux_stopped_mem P _ _ _ _ _ _ hrec hst
                have := (mem_intRange (a + 1) m ev hmem).1
                push_cast at this
                omega
              intro q hq
              rcases List.mem_append.mp hq with hq | hq
              · have := htb _ q hq
                omega
              · exact ih (a + 1) c e p out' ev hrec hst q hq
          | error msg => rw [hrec] at h; exact absurd h (by simp)
      · rw [dif_neg hlt] at h
        exact absurd h (by simp)

/-- A completed run never records a `push()` after `stop()` has returned
true. -/
theorem runAux_pushes_after_stop (P : RunParams)
    (htb : ∀ ep : Int, Ev.stopTrue ∉ P.trainBlock ep)
    (hev0 : ∀ e p : Nat, pushesAfterStop (P.evalFn e p).1 false = 0)
    (hevs : ∀ e p : Nat, (P.evalFn e p).2.2 = false → Ev.stopTrue ∉ (P.evalFn e p).1)
    (hex : Ev.stopTrue ∉ P.exitTrace) :
    ∀ (eps : List Int) (c e p : Nat) (out : RunOut),
      runAux P eps c e p = Except.ok out → pushesAfterStop out.trace false = 0 := by
  intro eps
  induction eps with
  | nil =>
      intro c e p out h
      simp only [runAux] at h
      injection h with h
      subst h
      exact pushesAfterStop_eq_zero _ hex
  | cons ep rest ih =>
      intro c e p out h
      simp only [runAux] at h
      by_cases hlt : c < P.sched.length
      · rw [dif_pos hlt] at h
        by_cases heq : ep = P.sched.get ⟨c, hlt⟩
        · rw [if_pos heq] at h
          by_cases hstop : (P.evalFn e p).2.2
          · rw [if_pos hstop] at h
            injection h with h
            subst h
            simp only []
            rw [pushesAfterStop_append_false _ _ (htb ep)]
            exact hev0 e p
          · rw [if_neg hstop] at h
            have hstop' : (P.evalFn e p).2.2 = false := by simpa using hstop
            cases hrec : runAux P rest (c + 1) (e + 1) (P.evalFn e p).2.1 with
            | ok out' =>
                rw [hrec] at h
                injection h with h
                subst h
                simp only []
                rw [pushesAfterStop_append_false _ _ ?hnotmem]
                case hnotmem =>
                  intro hc
                  rcases List.mem_append.mp hc with hc | hc
                  · exact htb ep hc
                  · exact hevs e p hstop' hc
                exact ih (c + 1) (e + 1) (P.evalFn e p).2.1 out' hrec
            | error msg => rw [hrec] at h; exact absurd h (by simp)
        · rw [if_neg heq] at h
          cases hrec : runAux P rest c e p with
          | ok out' =>
              rw [hrec] at h
              injection h with h
              subst h
              simp only []
              rw [pushesAfterStop_append_false _ _ (htb ep)]
              exact ih c e p out' hrec
          | error msg => rw [hrec] at h; exact absurd h (by simp)
      · rw [dif_neg hlt] at h
        exact absurd h (by simp)

/-- Event counting: if every training episode contributes `k` occurrences of
`x` and one `train` event, and evaluations and terminal hooks contribute
neither, the total count of `x` is `k` per completed training episode. -/
theorem runAux_count (P : RunParams) (x : Ev) (k : Nat)
    (htb : ∀ ep : Int, (P.trainBlock ep).count x = k ∧ trainCount (P.trainBlock ep) = 1)
    (hev : ∀ e p : Nat, ((P.evalFn e p).1).count x = 0 ∧ trainCount (P.evalFn e p).1 = 0)
    (hex : P.exitTrace.count x = 0 ∧ trainCount P.exitTrace = 0) :
    ∀ (eps : List Int) (c e p : Nat) (out : RunOut),
      runAux P eps c e p = Except.ok out →
      out.trace.count x = k * trainCount out.trace := by
  intro eps
  induction eps with
  | nil =>
      intro c e p out h
      simp only [runAux] at h
      injection h with h
      subst h
      simp only [trainCount] at hex ⊢
      rw [hex.1, hex.2]
      ring
  | cons ep rest ih =>
      intro c e p out h
      simp only [runAux] at h
      by_cases hlt : c < P.sched.length
      · rw [dif_pos hlt] at h
        by_cases heq : ep = P.sched.get ⟨c, hlt⟩
        · rw [if_pos heq] at h
          by_cases hstop : (P.evalFn e p).2.2
          · rw [if_pos hstop] at h
            injection h with h
            subst h
            simp only [trainCount, List.count_append, List.countP_append] at htb hev ⊢
            rw [(htb ep).1, (htb ep).2, (hev e p).1, (hev e p).2]
            ring
          · rw [if_neg hstop] at h
            cases hrec : runAux P rest (c + 1) (e + 1) (P.evalFn e p).2.1 with
            | ok out' =>
                rw [hrec] at h
                injection h with h
                subst h
                have hrec' := ih (c + 1) (e + 1) (P.evalFn e p).2.1 out' hrec
                simp only [trainCount, List.count_append, List.countP_append] at htb hev hrec' ⊢
                rw [(htb ep).1, (htb ep).2, (hev e p).1, (hev e p).2, hrec']
                ring
            | error msg => rw [hrec] at h; exact absurd h (by simp)
        · rw [if_neg heq] at h
          cases hrec : runAux P rest c e p with
          | ok out' =>
              rw [hrec] at h
              injection h with h
              subst h
              have hrec' := ih c e p out' hrec
              simp only [trainCount, List.count_append, List.countP_append] at htb hrec' ⊢
              rw [(htb ep).1, (htb ep).2, hrec']
              ring
          | error msg => rw [hrec] at h; exact absurd h (by simp)
      · rw [dif_neg hlt] at h
        exact absurd h (by simp)

/-- No exploration `step()` is ever recorded inside an evaluation episode,
provided no single block puts one there. -/
theorem runAux_explInEval (P : RunParams)
    (htb : ∀ ep : Int, explInEval (P.trainBlock ep) false = 0 ∧
      inEvalAfter (P.trainBlock ep) false = false)
    (hev : ∀ e p : Nat, explInEval (P.evalFn e p).1 false = 0 ∧
      inEvalAfter (P.evalFn e p).1 false = false)
    (hex : explInEval P.exitTrace false = 0) :
    ∀ (eps : List Int) (c e p : Nat) (out : RunOut),
      runAux P eps c e p = Except.ok out → explInEval out.trace false = 0 := by
  intro eps
  induction eps with
  | nil =>
      intro c e p out h
      simp only [runAux] at h
      injection h with h
      subst h
      exact hex
  | cons ep rest ih =>
      intro c e p out h
      simp only [runAux] at h
      by_cases hlt : c < P.sched.length
      · rw [dif_pos hlt] at h
        by_cases heq : ep = P.sched.get ⟨c, hlt⟩
        · rw [if_pos heq] at h
          by_cases hstop : (P.evalFn e p).2.2
          · rw [if_pos hstop] at h
            injection h with h
            subst h
            simp only [explInEval_append, inEvalAfter_append, (htb ep).1, (htb ep).2,
              (hev e p).1, (hev e p).2]
          · rw [if_neg hstop] at h
            cases hrec : runAux P rest (c + 1) (e + 1) (P.evalFn e p).2.1 with
            | ok out' =>
                rw [hrec] at h
                injection h with h
                subst h
                have hrec' := ih (c + 1) (e + 1) (P.evalFn e p).2.1 out' hrec
                simp only [explInEval_append, inEvalAfter_append, (htb ep).1, (htb ep).2,
                  (hev e p).1, (hev e p).2, hrec']
            | error msg => rw [hrec] at h; exact absurd h (by simp)
        · rw [if_neg heq] at h
          cases hrec : runAux P rest c e p with
          | ok out' =>
              rw [hrec] at h
              injection h with h
              subst h
              have hrec' := ih c e p out' hrec
              simp only [explInEval_append, inEvalAfter_append, (htb ep).1, (htb ep).2, hrec']
          | error msg => rw [hrec] at h; exact absurd h (by simp)
      · rw [dif_neg hlt] at h
        exact absurd h (by simp)

/-- If the loop exhausts the episode budget (no early stop), the terminal
hook events are in the trace. -/
theorem runAux_exit_mem (P : RunParams) (x : Ev) (hx : x ∈ P.exitTrace) :
    ∀ (eps : List Int) (c e p : Nat) (out : RunOut),
      runAux P eps c e p = Except.ok out → out.stoppedAt = Option.none →
      x ∈ out.trace := by
  intro eps
  induction eps with
  | nil =>
      intro c e p out h _hst
      simp only [runAux] at h
      injection h with h
      subst h
      exact hx
  | cons ep rest ih =>
      intro c e p out h hst
      simp only [runAux] at h
      by_cases hlt : c < P.sched.length
      · rw [dif_pos hlt] at h
        by_cases heq : ep = P.sched.get ⟨c, hlt⟩
        · rw [if_pos heq] at h
          by_cases hstop : (P.evalFn e p).2.2
          · rw [if_pos hstop] at h
            injection h with h
            subst h
            exact absurd hst (by simp)
          · rw [if_neg hstop] at h
            cases hrec : runAux P rest (c + 1) (e + 1) (P.evalFn e p).2.1 with
            | ok out' =>
                rw [hrec] at h
                injection h with h
                subst h
                simp only [] at hst
                exact List.mem_append.mpr (Or.inr (ih (c + 1) (e + 1) (P.evalFn e p).2.1 out' hrec hst))
            | error msg => rw [hrec] at h; exact absurd h (by simp)
        · rw [if_neg heq] at h
          cases hrec : runAux P rest c e p with
          | ok out' =>
              rw [hrec] at h
              injection h with h
              subst h
              simp only [] at hst
              exact List.mem_append.mpr (Or.inr (ih c e p out' hrec hst))
          | error msg => rw [hrec] at h; exact absurd h (by simp)
      · rw [dif_neg hlt] at h
        exact absurd h (by simp)

/-- If the loop stopped early, no event that only the terminal hooks could
emit appears in the trace. -/
theorem runAux_stop_not_mem (P : RunParams) (x : Ev)
    (htb : ∀ ep : Int, x ∉ P.trainBlock ep)
    (hev : ∀ e p : Nat, x ∉ (P.evalFn e p).1) :
    ∀ (eps : List Int) (c e p : Nat) (out : RunOut) (ev : Int),
      runAux P eps c e p = Except.ok out → out.stoppedAt = some ev →
      x ∉ out.trace := by
  intro eps
  induction eps with
  | nil =>
      intro c e p out ev h hst
      simp only [runAux] at h
      injection h with h
      subst h
      exact absurd hst (by simp)
  | cons ep rest ih =>
      intro c e p out ev h hst
      simp only [runAux] at h
      by_cases hlt : c < P.sched.length
      · rw [dif_pos hlt] at h
        by_cases heq : ep = P.sched.get ⟨c, hlt⟩
        · rw [if_pos heq] at h
          by_cases hstop : (P.evalFn e p).2.2
          · rw [if_pos hstop] at h
            injection h with h
            subst h
            intro hc
            rcases List.mem_append.mp hc with hc | hc
            · exact htb ep hc
            · exact hev e p hc
          · rw [if_neg hstop] at h
            cases hrec : runAux P rest (c + 1) (e + 1) (P.evalFn e p).2.1 with
            | ok out' =>
                rw [hrec] at h
                injection h with h
                subst h
                simp only [] at hst
                intro hc
                rcases List.mem_append.mp hc with hc | hc
                · rcases List.mem_append.mp hc with hc | hc
                  · exact htb ep hc
                  · exact hev e p hc
                · exact ih (c + 1) (e + 1) (P.evalFn e p).2.1 out' ev hrec hst hc
            | error msg => rw [hrec] at h; exact absurd h (by simp)
        · rw [if_neg heq] at h
          cases hrec : runAux P rest c e p with
          | ok out' =>
              rw [hrec] at h
              injection h with h
              subst h
              simp only [] at hst
              intro hc
              rcases List.mem_append.mp hc with hc | hc
              · exact htb ep hc
              · exact ih c e p out' ev hrec hst hc
          | error msg => rw [hrec] at h; exact absurd h (by simp)
      · rw [dif_neg hlt] at h
        exact absurd h (by simp)

/-! ## Facts about the concrete blocks -/

theorem mem_map_explStep (x : Ev) (l : List String) (h : x ∈ l.map Ev.explStep) :
    ∃ s, x = Ev.explStep s := by
  rcases List.mem_map.mp h with ⟨s, _, hs⟩
  exact ⟨s, hs.symm⟩

theorem mem_evalBlock (x : Ev) (k : Nat) (h : x ∈ evalBlock k) :
    x = Ev.evalBegin ∨ x = Ev.evalStep ∨ x = Ev.evalEnd := by
  simp only [evalBlock, List.mem_cons, List.mem_append, List.mem_replicate,
    List.mem_singleton] at h
  tauto

theorem explInEval_replicate_evalStep : ∀ (k : Nat) (t : List Ev) (b : Bool),
    explInEval (List.replicate k Ev.evalStep ++ t) b = explInEval t b
  | 0, t, b => rfl
  | k + 1, t, b => by
      simp only [List.replicate_succ, List.cons_append]
      cases b <;> exact explInEval_replicate_evalStep k t _

theorem inEvalAfter_replicate_evalStep : ∀ (k : Nat) (t : List Ev) (b : Bool),
    inEvalAfter (List.replicate k Ev.evalStep ++ t) b = inEvalAfter t b
  | 0, t, b => rfl
  | k + 1, t, b => by
      simp only [List.replicate_succ, List.cons_append]
      cases b <;> exact inEvalAfter_replicate_evalStep k t _

theorem explInEval_evalBlock (k : Nat) : explInEval (evalBlock k) false = 0 := by
  simp only [evalBlock, explInEval, explInEval_replicate_evalStep]

theorem inEvalAfter_evalBlock (k : Nat) (b : Bool) : inEvalAfter (evalBlock k) b = false := by
  simp only [evalBlock, inEvalAfter, inEvalAfter_replicate_evalStep]

theorem explInEval_map_explStep : ∀ (l : List String) (t : List Ev),
    explInEval (l.map Ev.explStep ++ t) false = explInEval t false
  | [], t => rfl
  | s :: l, t => by
      simp only [List.map_cons, List.cons_append, explInEval]
      exact explInEval_map_explStep l t

theorem inEvalAfter_map_explStep : ∀ (l : List String) (t : List Ev) (b : Bool),
    inEvalAfter (l.map Ev.explStep ++ t) b = inEvalAfter t b
  | [], t, b => rfl
  | s :: l, t, b => by
      simp only [List.map_cons, List.cons_append, inEvalAfter]
      exact inEvalAfter_map_explStep l t b

/-! ### `localTrainBlock` -/

theorem train_mem_localTrainBlock (schemes : List String) (ep q : Int)
    (h : Ev.train q ∈ localTrainBlock schemes ep) : q = ep := by
  simp only [localTrainBlock, List.mem_cons] at h
  rcases h with h | h
  · injection h with h
  · rcases mem_map_explStep _ _ h with ⟨s, hs⟩
    exact absurd hs (by simp)

theorem stopTrue_not_mem_localTrainBlock (schemes : List String) (ep : Int) :
    Ev.stopTrue ∉ localTrainBlock schemes ep := by
  simp only [localTrainBlock, List.mem_cons]
  rintro (h | h)
  · exact absurd h (by simp)
  · rcases mem_map_explStep _ _ h with ⟨s, hs⟩
    exact absurd hs (by simp)

theorem trainCount_localTrainBlock (schemes : List String) (ep : Int) :
    trainCount (localTrainBlock schemes ep) = 1 := by
  simp only [trainCount, localTrainBlock, List.countP_cons, isTrainEv]
  rw [List.countP_eq_zero.mpr ?none]
  case none =>
    intro x hx
    rcases mem_map_explStep _ _ hx with ⟨s, hs⟩
    subst hs
    simp [isTrainEv]
  rfl

theorem count_explStep_localTrainBlock (schemes : List String) (ep : Int) (s : String)
    (hmem : s ∈ schemes) (hnd : schemes.Nodup) :
    (localTrainBlock schemes ep).count (Ev.explStep s) = 1 := by
  simp only [localTrainBlock]
  rw [List.count_cons_of_ne (by simp), List.count_map_of_injective schemes Ev.explStep
    (fun a b hab => by injection hab) s]
  exact List.count_eq_one_of_mem hnd hmem

theorem explInEval_localTrainBlock (schemes : List String) (ep : Int) :
    explInEval (localTrainBlock schemes ep) false = 0 ∧
      inEvalAfter (localTrainBlock schemes ep) false = false := by
  constructor
  · show explInEval (Ev.train ep :: schemes.map Ev.explStep) false = 0
    have := explInEval_map_explStep schemes []
    simp only [List.append_nil] at this
    simpa [explInEval] using this
  · show inEvalAfter (Ev.train ep :: schemes.map Ev.explStep) false = false
    have := inEvalAfter_map_explStep schemes [] false
    simp only [List.append_nil] at this
    simpa [inEvalAfter] using this

/-! ### `localEvalFn` -/

theorem train_not_mem_localEvalFn (cfg : LocalCfg) (e p : Nat) (q : Int) :
    Ev.train q ∉ (localEvalFn cfg e p).1 := by
  simp only [localEvalFn]
  by_cases hs : cfg.hasStopper
  · simp only [hs, if_true]
    intro h
    rcases List.mem_append.mp h with h | h
    · rcases List.mem_append.mp h with h | h
      · rcases mem_evalBlock _ _ h with h | h | h <;> exact absurd h (by simp)
      · simp at h
    · by_cases hstop : cfg.stopAfter (p + 1) <;> simp [hstop] at h
  · simp only [hs, if_false]
    intro h
    rcases mem_evalBlock _ _ h with h | h | h <;> exact absurd h (by simp)

theorem pushesAfterStop_localEvalFn (cfg : LocalCfg) (e p : Nat) :
    pushesAfterStop (localEvalFn cfg e p).1 false = 0 := by
  simp only [localEvalFn]
  by_cases hs : cfg.hasStopper
  · simp only [hs, if_true]
    rw [pushesAfterStop_append_false]
    · by_cases hstop : cfg.stopAfter (p + 1) <;> simp [hstop] <;> rfl
    · intro h
      rcases List.mem_append.mp h with h | h
      · rcases mem_evalBlock _ _ h with h | h | h <;> exact absurd h (by simp)
      · simp at h
  · simp only [hs, if_false]
    apply pushesAfterStop_eq_zero
    intro h
    rcases mem_evalBlock _ _ h with h | h | h <;> exact absurd h (by simp)

theorem stopTrue_not_mem_localEvalFn (cfg : LocalCfg) (e p : Nat)
    (hfalse : (localEvalFn cfg e p).2.2 = false) :
    Ev.stopTrue ∉ (localEvalFn cfg e p).1 := by
  simp only [localEvalFn] at hfalse ⊢
  by_cases hs : cfg.hasStopper
  · simp only [hs, if_true] at hfalse ⊢
    have hfalse' : cfg.stopAfter (p + 1) = false := hfalse
    intro h
    rcases List.mem_append.mp h with h | h
    · rcases List.mem_append.mp h with h | h
      · rcases mem_evalBlock _ _ h with h | h | h <;> exact absurd h (by simp)
      · simp at h
    · rw [hfalse'] at h
      simp at h
  · simp only [hs, if_false]
    intro h
    rcases mem_evalBlock _ _ h with h | h | h <;> exact absurd h (by simp)

theorem count_explStep_localEvalFn (cfg : LocalCfg) (e p : Nat) (s : String) :
    ((localEvalFn cfg e p).1).count (Ev.explStep s) = 0 ∧
      trainCount (localEvalFn cfg e p).1 = 0 := by
  constructor
  · rw [List.count_eq_zero]
    simp only [localEvalFn]
    by_cases hs : cfg.hasStopper
    · simp only [hs, if_true]
      intro h
      rcases List.mem_append.mp h with h | h
      · rcases List.mem_append.mp h with h | h
        · rcases mem_evalBlock _ _ h with h | h | h <;> exact absurd h (by simp)
        · simp at h
      · by_cases hstop : cfg.stopAfter (p + 1) <;> simp [hstop] at h
    · simp only [hs, if_false]
      intro h
      rcases mem_evalBlock _ _ h with h | h | h <;> exact absurd h (by simp)
  · rw [trainCount, List.countP_eq_zero]
    intro x hx
    simp only [localEvalFn] at hx
    by_cases hs : cfg.hasStopper
    · simp only [hs, if_true] at hx
      rcases List.mem_append.mp hx with h | h
      · rcases List.mem_append.mp h with h | h
        · rcases mem_evalBlock _ _ h with h | h | h <;> simp [h, isTrainEv]
        · simp only [List.mem_singleton] at h
          simp [h, isTrainEv]
      · by_cases hstop : cfg.stopAfter (p + 1)
        · simp only [hstop, if_true, List.mem_singleton] at h
          simp [h, isTrainEv]
        · simp [hstop] at h
    · simp only [hs, if_false] at hx
      rcases mem_evalBlock _ _ hx with h | h | h <;> simp [h, isTrainEv]

theorem explInEval_localEvalFn (cfg : LocalCfg) (e p : Nat) :
    explInEval (localEvalFn cfg e p).1 false = 0 ∧
      inEvalAfter (localEvalFn cfg e p).1 false = false := by
  simp only [localEvalFn]
  by_cases hs : cfg.hasStopper
  · simp only [hs, if_true]
    constructor
    · rw [explInEval_append, explInEval_append, explInEval_evalBlock, inEvalAfter_evalBlock]
      by_cases hstop : cfg.stopAfter (p + 1) <;> simp [hstop, explInEval, inEvalAfter]
    · rw [inEvalAfter_append, inEvalAfter_append, inEvalAfter_evalBlock]
      by_cases hstop : cfg.stopAfter (p + 1) <;> simp [hstop, inEvalAfter]
  · simp only [hs, if_false]
    exact ⟨explInEval_evalBlock _, inEvalAfter_evalBlock _ _⟩

/-! ### Learner blocks -/

theorem mem_learnerPushLoop (f : Nat → Bool) : ∀ (m p : Nat) (x : Ev),
    x ∈ (learnerPushLoop f m p).1 → x = Ev.push ∨ x = Ev.stopTrue
  | 0, p, x => by intro h; simp [learnerPushLoop] at h
  | m + 1, p, x => by
      intro h
      simp only [learnerPushLoop] at h
      by_cases hstop : f (p + 1)
      · rw [if_pos hstop] at h
        simp only [List.mem_cons, List.mem_singleton] at h
        rcases h with h | h | h
        · exact Or.inl h
        · exact Or.inr h
        · simp at h
      · rw [if_neg hstop] at h
        simp only [List.mem_cons] at h
        rcases h with h | h
        · exact Or.inl h
        · exact mem_learnerPushLoop f m (p + 1) x h

theorem pushesAfterStop_learnerPushLoop (f : Nat → Bool) : ∀ (m p : Nat),
    pushesAfterStop (learnerPushLoop f m p).1 false = 0
  | 0, p => rfl
  | m + 1, p => by
      simp only [learnerPushLoop]
      by_cases hstop : f (p + 1)
      · rw [if_pos hstop]
        rfl
      · rw [if_neg hstop]
        show pushesAfterStop (Ev.push :: (learnerPushLoop f m (p + 1)).1) false = 0
        rw [pushesAfterStop_cons_of_ne _ _ (by simp)]
        exact pushesAfterStop_learnerPushLoop f m (p + 1)

theorem stopTrue_not_mem_learnerPushLoop (f : Nat → Bool) : ∀ (m p : Nat),
    (learnerPushLoop f m p).2.2 = false → Ev.stopTrue ∉ (learnerPushLoop f m p).1
  | 0, p => by intro _ h; simp [learnerPushLoop] at h
  | m + 1, p => by
      intro hfalse h
      simp only [learnerPushLoop] at hfalse h
      by_cases hstop : f (p + 1)
      · rw [if_pos hstop] at hfalse
        exact absurd hfalse (by simp)
      · rw [if_neg hstop] at hfalse h
        simp only [List.mem_cons] at h
        rcases h with h | h
        · exact absurd h (by simp)
        · exact stopTrue_not_mem_learnerPushLoop f m (p + 1) hfalse h

theorem train_not_mem_learnerEvalFn (cfg : LearnerCfg) (e p : Nat) (q : Int) :
    Ev.train q ∉ (learnerEvalFn cfg e p).1 := by
  simp only [learnerEvalFn]
  by_cases hs : cfg.hasStopper
  · simp only [hs, if_true]
    intro h
    rcases mem_learnerPushLoop _ _ _ _ h with h | h <;> exact absurd h (by simp)
  · simp only [hs, if_false]
    simp

theorem pushesAfterStop_learnerEvalFn (cfg : LearnerCfg) (e p : Nat) :
    pushesAfterStop (learnerEvalFn cfg e p).1 false = 0 := by
  simp only [learnerEvalFn]
  by_cases hs : cfg.hasStopper
  · simp only [hs, if_true]
    exact pushesAfterStop_learnerPushLoop _ _ _
  · simp only [hs, if_false]
    rfl

theorem stopTrue_not_mem_learnerEvalFn (cfg : LearnerCfg) (e p : Nat)
    (hfalse : (learnerEvalFn cfg e p).2.2 = false) :
    Ev.stopTrue ∉ (learnerEvalFn cfg e p).1 := by
  simp only [learnerEvalFn] at hfalse ⊢
  by_cases hs : cfg.hasStopper
  · simp only [hs, if_true] at hfalse ⊢
    exact stopTrue_not_mem_learnerPushLoop _ _ _ hfalse
  · simp only [hs, if_false]
    simp

theorem exit_not_mem_learnerEvalFn (cfg : LearnerCfg) (e p : Nat) (x : Ev)
    (hx : x = Ev.exitRollout ∨ x = Ev.exitPolicy) :
    x ∉ (learnerEvalFn cfg e p).1 := by
  simp only [learnerEvalFn]
  by_cases hs : cfg.hasStopper
  · simp only [hs, if_true]
    intro h
    rcases mem_learnerPushLoop _ _ _ _ h with h | h <;> rcases hx with hx | hx <;>
      (subst hx; exact absurd h (by simp))
  · simp only [hs, if_false]
    simp

theorem train_mem_learnerTrainBlock (ep q : Int) (h : Ev.train q ∈ [Ev.train ep]) : q = ep := by
  simp only [List.mem_singleton] at h
  injection h

theorem stopTrue_not_mem_learnerTrainBlock (ep : Int) : Ev.stopTrue ∉ [Ev.train ep] := by
  simp

theorem exit_not_mem_learnerTrainBlock (ep : Int) (x : Ev)
    (hx : x = Ev.exitRollout ∨ x = Ev.exitPolicy) : x ∉ [Ev.train ep] := by
  rcases hx with hx | hx <;> (subst hx; simp)

theorem stopTrue_not_mem_learnerExitTrace (cfg : LearnerCfg) :
    Ev.stopTrue ∉ learnerExitTrace cfg := by
  simp only [learnerExitTrace]
  intro h
  rcases List.mem_append.mp h with h | h
  · by_cases hr : cfg.rmHasExit <;> simp [hr] at h
  · by_cases hr : cfg.pmHasExit <;> simp [hr] at h

theorem exitRollout_mem_learnerExitTrace (cfg : LearnerCfg) (hr : cfg.rmHasExit = true) :
    Ev.exitRollout ∈ learnerExitTrace cfg := by
  simp [learnerExitTrace, hr]

theorem exitPolicy_mem_learnerExitTrace (cfg : LearnerCfg) (hp : cfg.pmHasExit = true) :
    Ev.exitPolicy ∈ learnerExitTrace cfg := by
  simp [learnerExitTrace, hp]

/-! ## Claims -/

/-- C1: refuted on the code (recorded divergence).  The two learner variants
do not compute the same evaluation schedule: at `num_episodes = 5`,
`eval_schedule = None`, `LocalLearner` stores `[5]` and evaluates exactly once
(at episode 5), while the distributed `Learner` stores `[]` — its `None`
branch never appends `num_episodes` — and its `run()` raises `IndexError` at
episode 1, so the two variants cannot trigger evaluation at the same episode
indices. -/
theorem claim1_schedule_divergence :
    localEvalSchedule 5 EvalArg.none = Except.ok [5] ∧
    learnerEvalSchedule 5 EvalArg.none = Except.ok [] ∧
    (localRun 5 ⟨[5], [], false, fun _ => false, fun _ => 0⟩).map
      (fun o => (o.evals, o.stoppedAt)) = Except.ok (1, Option.none) ∧
    learnerRun 5 ⟨[], false, fun _ => false, fun _ => 0, false, false⟩ =
      Except.error "IndexError" := by
  refine ⟨rfl, rfl, rfl, rfl⟩

/-- C2: refuted on the code (recorded divergence).  With `num_episodes = 5`
and integer `eval_schedule = 2`, `LocalLearner` stores `[2, 4, 5]` (the
multiples with the final episode appended) but the distributed `Learner`
stores just `[2, 4]` — its integer branch never appends `num_episodes` — and
its `run()` then raises `IndexError` at episode 5. -/
theorem claim2_int_schedule_divergence :
    localEvalSchedule 5 (EvalArg.int 2) = Except.ok [2, 4, 5] ∧
    learnerEvalSchedule 5 (EvalArg.int 2) = Except.ok [2, 4] ∧
    learnerRun 5 ⟨[2, 4], false, fun _ => false, fun _ => 0, false, false⟩ =
      Except.error "IndexError" := by
  refine ⟨rfl, rfl, rfl⟩

/-- C3: the `LocalLearner` schedule for `eval_schedule = None` is `[num_episodes]`
for every `num_episodes` (including the degenerate `[0]`), but the distributed
`Learner` stores `[]` instead — shown at `num_episodes = 0` and `1`, where its
`run()` raises `IndexError` at episode 1. -/
theorem claim3_none_schedule :
    (∀ n : Nat, localEvalSchedule n EvalArg.none = Except.ok [(n : Int)]) ∧
    learnerEvalSchedule 0 EvalArg.none = Except.ok [] ∧
    learnerEvalSchedule 1 EvalArg.none = Except.ok [] ∧
    learnerRun 1 ⟨[], false, fun _ => false, fun _ => 0, false, false⟩ =
      Except.error "IndexError" := by
  refine ⟨fun n => ?_, rfl, rfl, rfl⟩
  show Except.ok (appendFinal n (pySort [])) = Except.ok [(n : Int)]
  have hs : pySort [] = [] := rfl
  rw [hs]
  simp [appendFinal]

/-- C4, counterexample: a `LocalLearner` run that completes normally (no
exception, no early stop) with strictly fewer evaluations than the length of
its computed schedule: `eval_schedule = [2, 2]`, `num_episodes = 5` stores the
schedule `[2, 2, 5]` of length 3, yet the run performs exactly one
evaluation — the duplicate entry wedges the cursor. -/
theorem claim4_counterexample :
    localEvalSchedule 5 (EvalArg.list [2, 2]) = Except.ok [2, 2, 5] ∧
    (localRun 5 ⟨[2, 2, 5], [], false, fun _ => false, fun _ => 0⟩).map
      (fun o => (o.evals, o.stoppedAt)) = Except.ok (1, Option.none) ∧
    ([2, 2, 5] : List Int).length = 3 := by
  refine ⟨rfl, rfl, rfl⟩

/-- C4 (amended): in both learner variants the number of evaluation
invocations of a completed run never exceeds the length of the computed
schedule, and equals it provided the stored schedule is strictly increasing
with every entry in `[1, num_episodes]` and the run was not stopped early. -/
theorem claim4_amended (n : Nat) (cfgL : LocalCfg) (cfgD : LearnerCfg) (outL outD : RunOut)
    (hL : localRun n cfgL = Except.ok outL) (hD : learnerRun n cfgD = Except.ok outD) :
    outL.evals ≤ cfgL.sched.length ∧ outD.evals ≤ cfgD.sched.length ∧
    (List.Pairwise (fun x y : Int => x < y) cfgL.sched →
      (∀ x ∈ cfgL.sched, 1 ≤ x ∧ x ≤ (n : Int)) → outL.stoppedAt = Option.none →
      outL.evals = cfgL.sched.length) ∧
    (List.Pairwise (fun x y : Int => x < y) cfgD.sched →
      (∀ x ∈ cfgD.sched, 1 ≤ x ∧ x ≤ (n : Int)) → outD.stoppedAt = Option.none →
      outD.evals = cfgD.sched.length) := by
  have hsl : (localParams cfgL).sched = cfgL.sched := rfl
  have hsd : (learnerParams cfgD).sched = cfgD.sched := rfl
  have hcL := runAux_ok_counts (localParams cfgL) (episodes n) 0 0 0 outL (Nat.zero_le _) hL
  have hcD := runAux_ok_counts (learnerParams cfgD) (episodes n) 0 0 0 outD (Nat.zero_le _) hD
  rw [hsl] at hcL
  rw [hsd] at hcD
  refine ⟨by omega, by omega, fun hpair hbound hnone => ?_, fun hpair hbound hnone => ?_⟩
  · have hcomp := runAux_complete (localParams cfgL) hpair n 1 0 0 0 outL (Nat.zero_le _)
      (fun i hi _ => by exact_mod_cast (hbound _ (List.get_mem cfgL.sched i hi)).1)
      (fun x hx => by have := (hbound x hx).2; push_cast; omega) hL hnone
    rw [hsl] at hcomp
    omega
  · have hcomp := runAux_complete (learnerParams cfgD) hpair n 1 0 0 0 outD (Nat.zero_le _)
      (fun i hi _ => by exact_mod_cast (hbound _ (List.get_mem cfgD.sched i hi)).1)
      (fun x hx => by have := (hbound x hx).2; push_cast; omega) hD hnone
    rw [hsd] at hcomp
    omega

/-- Witness for C4 (amended) at `num_episodes = 2`, schedule `[1, 2]` in both
variants: the completed runs evaluate exactly twice. -/
theorem claim4_witness :
    (2 : Nat) ≤ ([1, 2] : List Int).length ∧ (2 : Nat) = ([1, 2] : List Int).length := by
  have h := claim4_amended 2 ⟨[1, 2], [], false, fun _ => false, fun _ => 0⟩
    ⟨[1, 2], false, fun _ => false, fun _ => 0, false, false⟩
    ⟨[Ev.train 1, Ev.evalBegin, Ev.evalEnd, Ev.train 2, Ev.evalBegin, Ev.evalEnd],
      2, 2, 0, Option.none⟩
    ⟨[Ev.train 1, Ev.train 2], 2, 2, 0, Option.none⟩ rfl rfl
  exact ⟨h.1, h.2.2.1 (by decide) (by decide) rfl⟩

/-- C5: in both learner variants, if `stop()` returned true at evaluation
episode `e < num_episodes`, the run records no training episode with index
greater than `e` and never records a `push()` after `stop()` has returned
true. -/
theorem claim5_early_stop (n : Nat) (cfgL : LocalCfg) (cfgD : LearnerCfg)
    (outL outD : RunOut) (e₁ e₂ : Int)
    (hL : localRun n cfgL = Except.ok outL) (hsL : outL.stoppedAt = some e₁)
    (heL : e₁ < (n : Int))
    (hD : learnerRun n cfgD = Except.ok outD) (hsD : outD.stoppedAt = some e₂)
    (heD : e₂ < (n : Int)) :
    ((∀ q : Int, Ev.train q ∈ outL.trace → q ≤ e₁) ∧
      pushesAfterStop outL.trace false = 0) ∧
    ((∀ q : Int, Ev.train q ∈ outD.trace → q ≤ e₂) ∧
      pushesAfterStop outD.trace false = 0) := by
  refine ⟨⟨?_, ?_⟩, ⟨?_, ?_⟩⟩
  · exact runAux_train_le (localParams cfgL)
      (fun ep q h => train_mem_localTrainBlock cfgL.schemes ep q h)
      (fun e p q => train_not_mem_localEvalFn cfgL e p q)
      n 1 0 0 0 outL e₁ hL hsL
  · exact runAux_pushes_after_stop (localParams cfgL)
      (fun ep => stopTrue_not_mem_localTrainBlock cfgL.schemes ep)
      (fun e p => pushesAfterStop_localEvalFn cfgL e p)
      (fun e p hf => stopTrue_not_mem_localEvalFn cfgL e p hf)
      (by simp [localParams])
      (episodes n) 0 0 0 outL hL
  · exact runAux_train_le (learnerParams cfgD)
      (fun ep q h => train_mem_learnerTrainBlock ep q h)
      (fun e p q => train_not_mem_learnerEvalFn cfgD e p q)
      n 1 0 0 0 outD e₂ hD hsD
  · exact runAux_pushes_after_stop (learnerParams cfgD)
      (fun ep => stopTrue_not_mem_learnerTrainBlock ep)
      (fun e p => pushesAfterStop_learnerEvalFn cfgD e p)
      (fun e p hf => stopTrue_not_mem_learnerEvalFn cfgD e p hf)
      (stopTrue_not_mem_learnerExitTrace cfgD)
      (episodes n) 0 0 0 outD hD

/-- Witness for C5: both variants with `num_episodes = 2`, schedule `[1, 2]`
and a stopper that stops at the first evaluation (episode 1 < 2); the traces
end at the stop and episode 1 is the last trained episode. -/
theorem claim5_witness :
    pushesAfterStop [Ev.train 1, Ev.explStep "x", Ev.evalBegin, Ev.evalEnd,
        Ev.push, Ev.stopTrue] false = 0 ∧
    pushesAfterStop [Ev.train 1, Ev.push, Ev.stopTrue] false = 0 ∧
    (1 : Int) ≤ 1 := by
  have h := claim5_early_stop 2 ⟨[1, 2], ["x"], true, fun _ => true, fun _ => 0⟩
    ⟨[1, 2], true, fun _ => true, fun _ => 1, true, true⟩
    ⟨[Ev.train 1, Ev.explStep "x", Ev.evalBegin, Ev.evalEnd, Ev.push, Ev.stopTrue],
      1, 1, 1, some 1⟩
    ⟨[Ev.train 1, Ev.push, Ev.stopTrue], 1, 1, 1, some 1⟩
    1 1 rfl rfl (by decide) rfl rfl (by decide)
  exact ⟨h.1.2, h.2.2, h.1.1 1 (by simp)⟩

/-- C6: in a completed `LocalLearner` run with a configured exploration
scheme `s` (registered once), the trace records exactly one `step()` of `s`
per completed training episode, and no exploration `step()` ever occurs
inside an evaluation episode. -/
theorem claim6_exploration_step (n : Nat) (cfg : LocalCfg) (out : RunOut) (s : String)
    (h : localRun n cfg = Except.ok out) (hs : s ∈ cfg.schemes) (hnd : cfg.schemes.Nodup) :
    out.trace.count (Ev.explStep s) = trainCount out.trace ∧
      explInEval out.trace false = 0 := by
  constructor
  · have hc := runAux_count (localParams cfg) (Ev.explStep s) 1
      (fun ep => ⟨count_explStep_localTrainBlock cfg.schemes ep s hs hnd,
        trainCount_localTrainBlock cfg.schemes ep⟩)
      (fun e p => count_explStep_localEvalFn cfg e p s)
      (by constructor <;> rfl)
      (episodes n) 0 0 0 out h
    simpa using hc
  · exact runAux_explInEval (localParams cfg)
      (fun ep => explInEval_localTrainBlock cfg.schemes ep)
      (fun e p => explInEval_localEvalFn cfg e p)
      rfl (episodes n) 0 0 0 out h

/-- Witness for C6: one episode, one registered scheme `"x"`, schedule `[1]`:
the completed trace has one `explStep "x"` for its one training episode and
none inside the evaluation episode. -/
theorem claim6_witness :
    List.count (Ev.explStep "x")
        [Ev.train 1, Ev.explStep "x", Ev.evalBegin, Ev.evalEnd] =
      trainCount [Ev.train 1, Ev.explStep "x", Ev.evalBegin, Ev.evalEnd] ∧
    explInEval [Ev.train 1, Ev.explStep "x", Ev.evalBegin, Ev.evalEnd] false = 0 := by
  have h := claim6_exploration_step 1 ⟨[1], ["x"], false, fun _ => false, fun _ => 0⟩
    ⟨[Ev.train 1, Ev.explStep "x", Ev.evalBegin, Ev.evalEnd], 1, 1, 0, Option.none⟩
    "x" rfl (by simp) (by simp)
  exact h

theorem collectLoop_bounded (stateAt : Nat → Bool) : ∀ (n pos fuel : Nat), n < fuel →
    (∀ i, i < n → stateAt (pos + i) = true) →
    collectLoop stateAt fuel pos (some n) = some (pos + n) := by
  intro n
  induction n with
  | zero =>
      intro pos fuel hf _hs
      cases fuel with
      | zero => omega
      | succ fuel => simp [collectLoop, budgetTruthy]
  | succ n ih =>
      intro pos fuel hf hs
      cases fuel with
      | zero => omega
      | succ fuel =>
          have h0 : stateAt pos = true := by simpa using hs 0 (by omega)
          have hbt : budgetTruthy (some (n + 1)) = true := by simp [budgetTruthy]
          simp only [collectLoop, h0, hbt, Bool.and_self, if_true, budgetDec,
            Nat.add_sub_cancel]
          have hrec := ih (pos + 1) fuel (by omega) (fun i hi => by
            have h2 : pos + 1 + i = pos + (i + 1) := by omega
            rw [h2]
            exact hs (i + 1) (by omega))
          rw [hrec]
          simp only [Option.some.injEq]
          omega

theorem collectLoop_unbounded (stateAt : Nat → Bool) : ∀ (k pos fuel : Nat), k < fuel →
    (∀ i, i < k → stateAt (pos + i) = true) → stateAt (pos + k) = false →
    collectLoop stateAt fuel pos Option.none = some (pos + k) := by
  intro k
  induction k with
  | zero =>
      intro pos fuel hf _hs hterm
      cases fuel with
      | zero => omega
      | succ fuel =>
          have h0 : stateAt pos = false := by simpa using hterm
          simp [collectLoop, h0]
  | succ k ih =>
      intro pos fuel hf hs hterm
      cases fuel with
      | zero => omega
      | succ fuel =>
          have h0 : stateAt pos = true := by simpa using hs 0 (by omega)
          simp only [collectLoop, h0, budgetTruthy, Bool.and_self, if_true, budgetDec]
          have hrec := ih (pos + 1) fuel (by omega) (fun i hi => by
            have h2 : pos + 1 + i = pos + (i + 1) := by omega
            rw [h2]
            exact hs (i + 1) (by omega))
            (by have h2 : pos + 1 + k = pos + (k + 1) := by omega
                rw [h2]
                exact hterm)
          rw [hrec]
          simp only [Option.some.injEq]
          omega

/-- C7: one `LocalLearner._collect` segment with positive `num_steps = n` on
an environment that stays non-terminal for at least `n` more steps performs
exactly `n` environment `step()` calls and returns the experiences harvested
at that point; with `num_steps = -1` (budget `inf`) the segment instead runs
until the environment state first becomes terminal (after `k` steps here). -/
theorem claim7_collect (stateAt : Nat → Bool) (expAt : Nat → List (String × Nat))
    (fuel pos n k : Nat)
    (hn : 0 < n) (hfb : n < fuel) (hsb : ∀ i, i < n → stateAt (pos + i) = true)
    (hfu : k < fuel) (hsu : ∀ i, i < k → stateAt (pos + i) = true)
    (hterm : stateAt (pos + k) = false) :
    localCollect stateAt expAt fuel pos (budgetOf (n : Int)) =
      some (pos + n, expAt (pos + n)) ∧
    localCollect stateAt expAt fuel pos (budgetOf (-1)) =
      some (pos + k, expAt (pos + k)) := by
  constructor
  · have hb : budgetOf (n : Int) = some n := by
      have hpos : (0 : Int) < (n : Int) := by exact_mod_cast hn
      simp only [budgetOf, if_pos hpos, Option.some.injEq]
      omega
    rw [localCollect, hb, collectLoop_bounded stateAt n pos fuel hfb hsb]
    rfl
  · have hb : budgetOf (-1) = Option.none := rfl
    rw [localCollect, hb, collectLoop_unbounded stateAt k pos fuel hfu hsu hterm]
    rfl

/-- Witness for C7: environment terminal after 4 steps, `num_steps = 3`,
fuel 10: the bounded segment stops at step 3, the unbounded one at step 4. -/
theorem claim7_witness :
    localCollect (fun i => decide (i < 4)) (fun q => [("a", q)]) 10 0 (budgetOf 3) =
      some (3, [("a", 3)]) ∧
    localCollect (fun i => decide (i < 4)) (fun q => [("a", q)]) 10 0 (budgetOf (-1)) =
      some (4, [("a", 4)]) := by
  have h := claim7_collect (fun i => decide (i < 4)) (fun q => [("a", q)]) 10 0 3 4
    (by decide) (by decide) (by decide) (by decide) (by decide) (by decide)
  exact h

/-- C8: `LocalLearner.__init__` fails (raises) whenever `num_steps` is zero
or below `-1`, or some agent is mapped to an unregistered policy id, or — with
a truthy `exploration_dict` — some agent is mapped to an unregistered
exploration id; the validation happens in the constructor, before any episode
runs. -/
theorem claim8_init_errors (a : LocalInitArgs)
    (h : (a.num_steps = 0 ∨ a.num_steps < -1) ∨
      lookupAll a.policyNames a.agent2policy = false ∨
      (∃ ids, a.explorationIds = some ids ∧ ids ≠ [] ∧
        lookupAll ids a.agent2exploration = false)) :
    isErr (localInit a) = true := by
  by_cases h1 : a.num_steps = 0 ∨ a.num_steps < -1
  · simp only [localInit, if_pos h1]
    rfl
  · simp only [localInit, if_neg h1]
    by_cases h2 : lookupAll a.policyNames a.agent2policy = false
    · rw [if_pos h2]
      rfl
    · rw [if_neg h2]
      rcases h with h | h | ⟨ids, hids, hne, hlk⟩
      · exact absurd h h1
      · exact absurd h h2
      · simp only [hids]
        rw [if_pos ⟨hne, hlk⟩]
        rfl

/-- Witness for C8: an agent mapped to the unregistered policy id `"q"` makes
construction fail. -/
theorem claim8_witness :
    isErr (localInit ⟨["p"], [("agent", "q")], -1, Option.none, [], 1, EvalArg.none⟩) =
      true :=
  claim8_init_errors _ (Or.inr (Or.inl (by decide)))

/-- C9, counterexample: a distributed `Learner` run terminated early by the
early stopper (a normal completion per the claim) in which neither manager's
`exit()` hook is invoked even though both managers define one: the `return`
in the metric loop bypasses the hook calls. -/
theorem claim9_counterexample :
    (learnerRun 2 ⟨[1, 2], true, fun _ => true, fun _ => 1, true, true⟩).map
      (fun o => (o.stoppedAt, o.trace.count Ev.exitRollout, o.trace.count Ev.exitPolicy)) =
    Except.ok (some 1, 0, 0) := rfl

/-- C9 (amended): the distributed `Learner` invokes each manager's `exit()`
hook (when defined) exactly when `run()` completes by exhausting the episode
budget; when the early stopper terminates the run, the hooks are not
invoked. -/
theorem claim9_amended (n : Nat) (cfg : LearnerCfg) (out : RunOut)
    (h : learnerRun n cfg = Except.ok out) :
    (out.stoppedAt = Option.none →
      (cfg.rmHasExit = true → Ev.exitRollout ∈ out.trace) ∧
      (cfg.pmHasExit = true → Ev.exitPolicy ∈ out.trace)) ∧
    (∀ ev : Int, out.stoppedAt = some ev →
      Ev.exitRollout ∉ out.trace ∧ Ev.exitPolicy ∉ out.trace) := by
  constructor
  · intro hnone
    constructor
    · intro hr
      exact runAux_exit_mem (learnerParams cfg) Ev.exitRollout
        (exitRollout_mem_learnerExitTrace cfg hr) (episodes n) 0 0 0 out h hnone
    · intro hp
      exact runAux_exit_mem (learnerParams cfg) Ev.exitPolicy
        (exitPolicy_mem_learnerExitTrace cfg hp) (episodes n) 0 0 0 out h hnone
  · intro ev hst
    constructor
    · exact runAux_stop_not_mem (learnerParams cfg) Ev.exitRollout
        (fun ep => exit_not_mem_learnerTrainBlock ep _ (Or.inl rfl))
        (fun e p => exit_not_mem_learnerEvalFn cfg e p _ (Or.inl rfl))
        (episodes n) 0 0 0 out ev h hst
    · exact runAux_stop_not_mem (learnerParams cfg) Ev.exitPolicy
        (fun ep => exit_not_mem_learnerTrainBlock ep _ (Or.inr rfl))
        (fun e p => exit_not_mem_learnerEvalFn cfg e p _ (Or.inr rfl))
        (episodes n) 0 0 0 out ev h hst

/-- Witness for C9 (amended): a one-episode run that exhausts its budget
invokes both hooks. -/
theorem claim9_witness :
    Ev.exitRollout ∈ [Ev.train 1, Ev.exitRollout, Ev.exitPolicy] ∧
    Ev.exitPolicy ∈ [Ev.train 1, Ev.exitRollout, Ev.exitPolicy] := by
  have h := claim9_amended 1 ⟨[1], false, fun _ => false, fun _ => 0, true, true⟩
    ⟨[Ev.train 1, Ev.exitRollout, Ev.exitPolicy], 1, 1, 0, Option.none⟩ rfl
  exact ⟨(h.1 rfl).1 rfl, (h.1 rfl).2 rfl⟩

/-- Cursor discipline of a completed episode loop started at cursor 0 over
episodes `1 .. n`: evaluations and cursor advances coincide, the cursor is
bounded by the episode count and the schedule length, every consumed entry
lies in `[1, n]`, consumed entries are strictly increasing (so a duplicated
entry wedges the cursor at or before the duplicate), and an entry above `n`
is never passed. -/
theorem run_cursor_props (P : RunParams) (n : Nat) (out : RunOut)
    (h : runAux P (episodes n) 0 0 0 = Except.ok out) :
    out.evals = out.cursor ∧ out.cursor ≤ n ∧ out.cursor ≤ P.sched.length ∧
    (∀ i x, P.sched.get? i = some x → i < out.cursor → 1 ≤ x ∧ x ≤ (n : Int)) ∧
    (∀ i j x, i < j → P.sched.get? i = some x → P.sched.get? j = some x →
      out.cursor ≤ j) ∧
    (∀ i x, P.sched.get? i = some x → (n : Int) < x → out.cursor ≤ i) := by
  have hc := runAux_ok_counts P (episodes n) 0 0 0 out (Nat.zero_le _) h
  have hlen : (episodes n).length = n := length_intRange 1 n
  have hcons := runAux_consumed P n 1 0 0 0 out h
  obtain ⟨hc1, hc2, hc3, hc4⟩ := hc
  refine ⟨by omega, by omega, hc2, ?_, ?_, ?_⟩
  · intro i x hgi hic
    rcases List.get?_eq_some.mp hgi with ⟨hilen, hget⟩
    have hb := hcons.1 i hilen (Nat.zero_le _) hic
    rw [hget] at hb
    refine ⟨by exact_mod_cast hb.1, ?_⟩
    have := hb.2
    push_cast at this
    omega
  · intro i j x hij hgi hgj
    by_contra hcon
    push_neg at hcon
    rcases List.get?_eq_some.mp hgi with ⟨hilen, hgeti⟩
    rcases List.get?_eq_some.mp hgj with ⟨hjlen, hgetj⟩
    have hstrict := hcons.2 i j hilen hjlen (Nat.zero_le _) hij hcon
    rw [hgeti, hgetj] at hstrict
    exact absurd hstrict (lt_irrefl x)
  · intro i x hgi hnx
    by_contra hcon
    push_neg at hcon
    rcases List.get?_eq_some.mp hgi with ⟨hilen, hget⟩
    have hb := hcons.1 i hilen (Nat.zero_le _) hcon
    rw [hget] at hb
    have := hb.2
    push_cast at this
    omega

/-- C10: in both learner variants, the cursor advances only on an exact
episode/entry match and at most once per episode (evaluations = cursor
advances, cursor bounded by the episode count), consumed entries are strictly
increasing and lie in `[1, num_episodes]`; hence a duplicated entry is never
matched (the cursor never passes the duplicate), and an entry greater than
`num_episodes` is never matched (the cursor never reaches past it), silently
skipping every later scheduled evaluation. -/
theorem claim10_cursor (n : Nat) (cfgL : LocalCfg) (cfgD : LearnerCfg) (outL outD : RunOut)
    (hL : localRun n cfgL = Except.ok outL) (hD : learnerRun n cfgD = Except.ok outD) :
    (outL.evals = outL.cursor ∧ outL.cursor ≤ n ∧ outL.cursor ≤ cfgL.sched.length ∧
      (∀ i x, cfgL.sched.get? i = some x → i < outL.cursor → 1 ≤ x ∧ x ≤ (n : Int)) ∧
      (∀ i j x, i < j → cfgL.sched.get? i = some x → cfgL.sched.get? j = some x →
        outL.cursor ≤ j) ∧
      (∀ i x, cfgL.sched.get? i = some x → (n : Int) < x → outL.cursor ≤ i)) ∧
    (outD.evals = outD.cursor ∧ outD.cursor ≤ n ∧ outD.cursor ≤ cfgD.sched.length ∧
      (∀ i x, cfgD.sched.get? i = some x → i < outD.cursor → 1 ≤ x ∧ x ≤ (n : Int)) ∧
      (∀ i j x, i < j → cfgD.sched.get? i = some x → cfgD.sched.get? j = some x →
        outD.cursor ≤ j) ∧
      (∀ i x, cfgD.sched.get? i = some x → (n : Int) < x → outD.cursor ≤ i)) :=
  ⟨run_cursor_props (localParams cfgL) n outL hL,
    run_cursor_props (learnerParams cfgD) n outD hD⟩

/-- Witness for C10: both variants with stored schedule `[1, 1]` and
`num_episodes = 2`; the duplicate wedges the cursor at position 1 in both
runs (one evaluation each, the duplicate and anything after it skipped). -/
theorem claim10_witness :
    (1 : Nat) = 1 ∧ (1 : Nat) ≤ 2 ∧ (1 : Nat) ≤ ([1, 1] : List Int).length ∧
      (1 : Nat) ≤ 1 := by
  have h := claim10_cursor 2 ⟨[1, 1], [], false, fun _ => false, fun _ => 0⟩
    ⟨[1, 1], false, fun _ => false, fun _ => 0, false, false⟩
    ⟨[Ev.train 1, Ev.evalBegin, Ev.evalEnd, Ev.train 2], 1, 1, 0, Option.none⟩
    ⟨[Ev.train 1, Ev.train 2], 1, 1, 0, Option.none⟩ rfl rfl
  exact ⟨h.1.1, h.1.2.1, h.1.2.2.1, h.1.2.2.2.2.1 0 1 1 (by decide) rfl rfl⟩

end Maro
